import Mathlib

/-!
Verification of the Eventful library (eventful.ts / helpers.ts).

The TypeScript source is shallowly embedded as follows.

* A JS object used as a dictionary (`this._listeners`, `this._onceListeners`)
  is an insertion-ordered association list `List (String × α)` with lookup
  `dget`, assignment `dset` (replace in place if the key exists, else append,
  matching JS property-assignment order semantics) and the `delete` keyword
  `ddel`.
* A JS callback is opaque: it is identified by a `Nat`.  `fnc.bind(this)`
  creates a fresh function object each time it is evaluated, so every
  registration stores a `Wrapper` carrying a globally fresh `id` (allocated
  from the `nextId` counter of the state) together with the identity `fn`
  of the user callback it wraps.  Function identity in JS (used by
  `addEventListener` dedup and `removeEventListener`) is `Wrapper` equality.
* The DOM text node `this._eventTarget` is an `EventTarget`: a list of
  registrations `(name, wrapper, once)` in insertion order.
  `addEventListener` appends unless an identical `(name, callback)` pair is
  already present (DOM dedup); `removeEventListener` removes the matching
  pair; dispatching for a name synchronously invokes, in registration order,
  every callback whose registration matches the name, and drops the
  registrations added with `{once : true}` for that name.
* An array slot emptied by the `delete` keyword is a hole: listener arrays
  are `List (Option Wrapper)` and a hole is `none`.  `_removeEmptyElements`
  filters by JS truthiness (`truthy`); a function object is truthy, a hole
  (`undefined`) is falsy.
* Fallible code returns `Option`: `off` on a name whose key is absent reads
  `.length` of `undefined` and throws, which is modelled as `none`.
  Likewise the (unreachable) branch of `fireEvent` that would index into an
  `undefined` listeners array.
* `fireEvent` is split into `Eventful.fireEventCore` (the dispatch and the
  one-shot bookkeeping, which do not depend on the event payload) and
  `Eventful.fireEvent`, which builds the event via `createEvent`
  (`_createEvent` in the source, with its `CustomEvent` / IE fallback
  branches and the `data = {}` default) and pairs every invoked wrapper
  with the event value it receives.  The payload type is a parameter `D`;
  an omitted `data` argument is `none`.
-/

set_option maxHeartbeats 1000000

/-! ### JS object dictionaries -/

def dget {α : Type} : List (String × α) → String → Option α
  | [], _ => none
  | p :: rest, k => if p.1 = k then some p.2 else dget rest k

def dhas {α : Type} : List (String × α) → String → Bool
  | [], _ => false
  | p :: rest, k => p.1 == k || dhas rest k

def dreplace {α : Type} : List (String × α) → String → α → List (String × α)
  | [], _, _ => []
  | p :: rest, k, v => (if p.1 = k then (k, v) else p) :: dreplace rest k v

def dset {α : Type} (d : List (String × α)) (k : String) (v : α) : List (String × α) :=
  if dhas d k then dreplace d k v else d ++ [(k, v)]

def ddel {α : Type} (d : List (String × α)) (k : String) : List (String × α) :=
  d.filter (fun p => !(p.1 == k))

/-! ### Wrappers, the event target, events -/

structure Wrapper where
  id : Nat
  fn : Nat
  deriving DecidableEq, Repr

structure Reg where
  name : String
  cb : Wrapper
  once : Bool
  deriving DecidableEq, Repr

structure Event (D : Type) where
  name : String
  detail : D
  deriving DecidableEq, Repr

def addEventListener (t : List Reg) (n : String) (cb : Wrapper) (onceFlag : Bool) :
    List Reg :=
  if t.any (fun r => r.name == n && r.cb == cb) then t
  else t ++ [{ name := n, cb := cb, once := onceFlag }]

def removeEventListener (t : List Reg) (n : String) (cb : Wrapper) : List Reg :=
  t.filter (fun r => !(r.name == n && r.cb == cb))

/-- Dispatching an event with name `n`: the new target state (the `once`
registrations for `n` are consumed) and the wrappers invoked, in
registration order. -/
def dispatchEventCore (t : List Reg) (n : String) : List Reg × List Wrapper :=
  (t.filter (fun r => !(r.name == n && r.once)),
   (t.filter (fun r => r.name == n)).map Reg.cb)

/-! ### The Eventful state and its methods -/

structure Eventful where
  _listeners : List (String × List (Option Wrapper))
  _onceListeners : List (String × List Nat)
  _eventTarget : List Reg
  nextId : Nat
  deriving DecidableEq, Repr

/-- The constructor body: `_listeners = {}`, `_onceListeners = {}`, and a
fresh text node as `_eventTarget`. -/
def Eventful.init : Eventful :=
  { _listeners := [], _onceListeners := [], _eventTarget := [], nextId := 0 }

/-- `_removeEmptyElements(arr)`: given `undefined` returns `[]`, else keeps
the truthy elements.  JS truthiness of the element type is a parameter. -/
def removeEmptyElements {α : Type} (truthy : α → Bool) : Option (List α) → List α
  | none => []
  | some arr => arr.filter truthy

/-- Truthiness of a listener-array slot: a function object is truthy, a hole
left by `delete` is falsy. -/
def slotTruthy : Option Wrapper → Bool := Option.isSome

/-- Truthiness of a stored index (a JS number): `0` is falsy. -/
def natTruthy (i : Nat) : Bool := i != 0

/-- `on(name, fnc)`. -/
def Eventful.on (s : Eventful) (n : String) (fnc : Nat) : Eventful :=
  let l0 := if dget s._listeners n = none then dset s._listeners n [] else s._listeners
  let w : Wrapper := { id := s.nextId, fn := fnc }
  let arr := (dget l0 n).getD [] ++ [some w]
  { _listeners := dset l0 n arr,
    _onceListeners := s._onceListeners,
    _eventTarget := addEventListener s._eventTarget n w false,
    nextId := s.nextId + 1 }

/-- `once(name, fnc)`.  `index` is the position of the just-pushed wrapper:
`this._listeners[name].length - 1` after the push. -/
def Eventful.once (s : Eventful) (n : String) (fnc : Nat) : Eventful :=
  let l0 := if dget s._listeners n = none then dset s._listeners n [] else s._listeners
  let w : Wrapper := { id := s.nextId, fn := fnc }
  let arr := (dget l0 n).getD [] ++ [some w]
  let index := arr.length - 1
  let o0 := if dget s._onceListeners n = none then dset s._onceListeners n [] else s._onceListeners
  { _listeners := dset l0 n arr,
    _onceListeners := dset o0 n ((dget o0 n).getD [] ++ [index]),
    _eventTarget := addEventListener s._eventTarget n w true,
    nextId := s.nextId + 1 }

/-- `off(name)`.  The first statement reads `this._listeners[name].length`,
which throws (`none`) when the key is absent.  Otherwise every (non-hole)
stored wrapper is removed from the event target, both keys are deleted and
re-assigned to `_removeEmptyElements(undefined) = []`. -/
def Eventful.off (s : Eventful) (n : String) : Option Eventful :=
  match dget s._listeners n with
  | none => none
  | some arr =>
    let t1 := if arr.length != 0 then
        arr.foldl (fun t slot => match slot with
          | some w => removeEventListener t n w
          | none => t) s._eventTarget
      else s._eventTarget
    let l1 := ddel s._listeners n
    let l2 := dset l1 n (removeEmptyElements slotTruthy (dget l1 n))
    let o1 := ddel s._onceListeners n
    let o2 := dset o1 n (removeEmptyElements natTruthy (dget o1 n))
    some { _listeners := l2, _onceListeners := o2, _eventTarget := t1, nextId := s.nextId }

/-- The `indices.forEach` loop of `fireEvent`: for each recorded index,
remove the wrapper currently stored at that position from the event target
(`removeEventListener` with `undefined` is a no-op when the slot is already
a hole) and `delete` the slot.  The listener array is read live at each
iteration. -/
def fireFold (n : String) (idxs : List Nat) (arr : List (Option Wrapper)) (t : List Reg) :
    List (Option Wrapper) × List Reg :=
  idxs.foldl (fun ac index =>
    let t' := match ac.1.getD index none with
      | some w => removeEventListener ac.2 n w
      | none => ac.2
    (ac.1.set index none, t')) (arr, t)

/-- The payload-independent part of `fireEvent(name, data)`: dispatch through
the event target, then one-shot bookkeeping.  Returns the new state and the
wrappers that were invoked.  When `_onceListeners[name]` is truthy but
`_listeners[name]` is `undefined` and there is an index to process, the
source would read `undefined[index]` and throw (`none`). -/
def Eventful.fireEventCore (s : Eventful) (n : String) : Option (Eventful × List Wrapper) :=
  let d := dispatchEventCore s._eventTarget n
  match dget s._onceListeners n with
  | none => some ({ s with _eventTarget := d.1 }, d.2)
  | some indices =>
    match dget s._listeners n, indices with
    | some arr, _ =>
      let f := fireFold n indices arr d.1
      some ({ _listeners := dset s._listeners n (removeEmptyElements slotTruthy (some f.1)),
              _onceListeners := ddel s._onceListeners n,
              _eventTarget := f.2,
              nextId := s.nextId }, d.2)
    | none, [] =>
      some ({ _listeners := dset s._listeners n (removeEmptyElements slotTruthy none),
              _onceListeners := ddel s._onceListeners n,
              _eventTarget := d.1,
              nextId := s.nextId }, d.2)
    | none, _ :: _ => none

/-- `_createEvent(name, data = {})`: both the `CustomEvent` branch and the
IE fallback produce a value whose `detail` is `data`, defaulted to the empty
object when omitted. -/
def createEvent {D : Type} (hasCustomEvent : Bool) (emptyObj : D) (n : String)
    (data : Option D) : Event D :=
  if hasCustomEvent then { name := n, detail := data.getD emptyObj }
  else { name := n, detail := data.getD emptyObj }

/-- `fireEvent(name, data)`: every invoked wrapper receives the one event
value built by `_createEvent`. -/
def Eventful.fireEvent {D : Type} (hasCustomEvent : Bool) (emptyObj : D) (s : Eventful)
    (n : String) (data : Option D) : Option (Eventful × List (Wrapper × Event D)) :=
  match s.fireEventCore n with
  | none => none
  | some (s', ws) =>
    some (s', ws.map (fun w => (w, createEvent hasCustomEvent emptyObj n data)))

/-- `hasListeners()`: `!!(this._listeners && Object.keys(this._listeners).length)`.
The `_listeners` object itself is always truthy, so this is exactly: the
table has at least one key. -/
def Eventful.hasListeners (s : Eventful) : Bool :=
  !s._listeners.isEmpty

/-- `getListeners()`: the live `_listeners` table. -/
def Eventful.getListeners (s : Eventful) : List (String × List (Option Wrapper)) :=
  s._listeners

/-! ### Helper adapters (helpers.ts) -/

/-- A JS object that may or may not carry the Eventful capability: its own
data properties, whether its prototype chain contains `Eventful.prototype`,
and its Eventful instance state if the constructor has run against it. -/
structure EvObject where
  fields : List (String × Int)
  eventfulProto : Bool
  state : Option Eventful
  deriving DecidableEq, Repr

/-- `Eventful.apply(obj)`: runs the constructor body against `obj`, (re)setting
`_listeners`, `_onceListeners` and `_eventTarget`. -/
def eventfulApply (obj : EvObject) : EvObject :=
  { obj with state := some Eventful.init }

/-- `EventfulPrototype()`: `Object.create(Eventful.prototype)` — an object
with the capability prototype but an un-run constructor. -/
def EventfulPrototype : EvObject :=
  { fields := [], eventfulProto := true, state := none }

/-- `Eventify(obj)`: `Object.setPrototypeOf(obj, Eventful.prototype)` then
`Eventful.apply(obj)`; returns the same object. -/
def Eventify (obj : EvObject) : EvObject :=
  eventfulApply { obj with eventfulProto := true }

/-! ### Operation sequences and reachability -/

inductive Op where
  | evOn (n : String) (fnc : Nat)
  | evOnce (n : String) (fnc : Nat)
  | evOff (n : String)
  | evFire (n : String)
  deriving DecidableEq, Repr

/-- One API call.  A call that throws leaves the state as it was at the throw
point: `off` throws before any mutation; the (unreachable) throwing branch of
`fireEvent` throws after the dispatch already mutated the event target. -/
def applyOp (s : Eventful) : Op → Eventful
  | .evOn n f => s.on n f
  | .evOnce n f => s.once n f
  | .evOff n => (s.off n).getD s
  | .evFire n =>
    match s.fireEventCore n with
    | some (s', _) => s'
    | none => { s with _eventTarget := (dispatchEventCore s._eventTarget n).1 }

def runOps (ops : List Op) : Eventful := ops.foldl applyOp Eventful.init

def runFrom (s : Eventful) (ops : List Op) : Eventful := ops.foldl applyOp s

def Reachable (s : Eventful) : Prop := ∃ ops : List Op, runOps ops = s

/-! ### Observers used by the statements -/

def listenersOf (s : Eventful) (n : String) : List (Option Wrapper) :=
  (dget s._listeners n).getD []

def onceOf (s : Eventful) (n : String) : List Nat :=
  (dget s._onceListeners n).getD []

/-- A listener-array slot is well-formed for id bound `bound`: it is not a
hole and its wrapper id is below the bound. -/
def slotOk (bound : Nat) : Option Wrapper → Prop
  | some w => w.id < bound
  | none => False

/-- The state invariant maintained by the API:
every listener slot is hole-free with a stale-free wrapper id; every
recorded one-shot index refers to a valid position of the listener array of
its own event name; every event-target registration has a stale-free id and
its wrapper is present in the listener table under its name. -/
def EvInv (s : Eventful) : Prop :=
  (∀ p ∈ s._listeners, ∀ slot ∈ p.2, slotOk s.nextId slot)
  ∧ (∀ q ∈ s._onceListeners, ∃ arr, dget s._listeners q.1 = some arr ∧ ∀ i ∈ q.2, i < arr.length)
  ∧ (∀ r ∈ s._eventTarget, r.cb.id < s.nextId)
  ∧ (∀ r ∈ s._eventTarget, some r.cb ∈ listenersOf s r.name)

example : Eventful.init.hasListeners = false := by decide

example : (Eventful.init.on "a" 7).hasListeners = true := by decide

example : Eventful.init.off "ping" = none := by decide

example : (Eventful.init.on "a" 7).off "a" =
    some { _listeners := [("a", [])], _onceListeners := [("a", [])],
           _eventTarget := [], nextId := 1 } := by decide

example :
    (Eventful.init.once "e" 5).fireEventCore "e" =
      some ({ _listeners := [("e", [])], _onceListeners := [],
              _eventTarget := [], nextId := 1 }, [⟨0, 5⟩]) := by decide

/-! ### Dictionary lemmas -/

theorem dget_eq_none_iff {α : Type} (d : List (String × α)) (k : String) :
    dget d k = none ↔ dhas d k = false := by
  induction d with
  | nil => simp [dget, dhas]
  | cons p rest ih =>
    by_cases h : p.1 = k <;> simp [dget, dhas, h, ih]

theorem not_mem_key_of_dhas_false {α : Type} {d : List (String × α)} {k : String}
    (h : dhas d k = false) : ∀ p ∈ d, p.1 ≠ k := by
  induction d with
  | nil => simp
  | cons q rest ih =>
    simp [dhas] at h
    intro p hp
    rcases List.mem_cons.mp hp with rfl | hp'
    · exact h.1
    · exact ih h.2 p hp'

theorem dreplace_of_not_dhas {α : Type} {d : List (String × α)} {k : String} {v : α}
    (h : dhas d k = false) : dreplace d k v = d := by
  induction d with
  | nil => rfl
  | cons p rest ih =>
    simp [dhas] at h
    simp [dreplace, h.1, ih h.2]

theorem dget_dreplace_self {α : Type} {d : List (String × α)} {k : String} {v : α}
    (h : dhas d k = true) : dget (dreplace d k v) k = some v := by
  induction d with
  | nil => simp [dhas] at h
  | cons p rest ih =>
    by_cases hp : p.1 = k
    · simp [dreplace, hp, dget]
    · simp [dhas, hp] at h
      simp [dreplace, hp, dget, ih h]

theorem dget_append_single {α : Type} {d : List (String × α)} {k : String} {v : α}
    (h : dhas d k = false) : dget (d ++ [(k, v)]) k = some v := by
  induction d with
  | nil => simp [dget]
  | cons p rest ih =>
    simp [dhas] at h
    simp [dget, h.1, ih h.2]

theorem dget_dset_self {α : Type} (d : List (String × α)) (k : String) (v : α) :
    dget (dset d k v) k = some v := by
  unfold dset
  by_cases h : dhas d k
  · simp [h, dget_dreplace_self h]
  · simp only [h, if_false, Bool.false_eq_true, if_neg]
    exact dget_append_single (by simpa using h)

theorem dget_dreplace_ne {α : Type} {d : List (String × α)} {k m : String} {v : α}
    (h : m ≠ k) : dget (dreplace d k v) m = dget d m := by
  induction d with
  | nil => rfl
  | cons p rest ih =>
    by_cases hp : p.1 = k
    · have hpm : p.1 ≠ m := by rw [hp]; exact Ne.symm h
      simp [dreplace, hp, dget, Ne.symm h, hpm, ih]
    · simp only [dreplace, if_neg hp, dget, ih]

theorem dget_append_ne {α : Type} {d : List (String × α)} {k m : String} {v : α}
    (h : m ≠ k) : dget (d ++ [(k, v)]) m = dget d m := by
  induction d with
  | nil => simp [dget, Ne.symm h]
  | cons p rest ih => by_cases hp : p.1 = m <;> simp [dget, hp, ih]

theorem dget_dset_ne {α : Type} {d : List (String × α)} {k m : String} {v : α}
    (h : m ≠ k) : dget (dset d k v) m = dget d m := by
  unfold dset
  by_cases hh : dhas d k
  · simp [hh, dget_dreplace_ne h]
  · simp only [hh, Bool.false_eq_true, if_neg, if_false]
    exact dget_append_ne h

theorem mem_ddel {α : Type} {d : List (String × α)} {k : String} {p : String × α}
    (h : p ∈ ddel d k) : p ∈ d ∧ p.1 ≠ k := by
  unfold ddel at h
  rw [List.mem_filter] at h
  refine ⟨h.1, ?_⟩
  simpa using h.2

theorem dget_ddel_self {α : Type} (d : List (String × α)) (k : String) :
    dget (ddel d k) k = none := by
  induction d with
  | nil => rfl
  | cons p rest ih =>
    by_cases hp : p.1 = k
    · simpa [ddel, List.filter_cons, hp] using ih
    · simp only [ddel, List.filter_cons] at ih ⊢
      simp [hp, dget, ih]

theorem dget_ddel_ne {α : Type} {d : List (String × α)} {k m : String}
    (h : m ≠ k) : dget (ddel d k) m = dget d m := by
  induction d with
  | nil => rfl
  | cons p rest ih =>
    simp only [ddel, List.filter_cons] at ih ⊢
    by_cases hp : p.1 = k
    · simp [hp, dget, Ne.symm h, ih]
    · by_cases hq : p.1 = m <;> simp [hp, hq, dget, h, ih]

theorem dget_mem {α : Type} {d : List (String × α)} {k : String} {v : α}
    (h : dget d k = some v) : (k, v) ∈ d := by
  induction d with
  | nil => simp [dget] at h
  | cons p rest ih =>
    by_cases hp : p.1 = k
    · simp [dget, hp] at h
      have hkv : (k, v) = p := by rw [← hp, ← h]
      rw [hkv]
      exact List.mem_cons_self _ _
    · simp [dget, hp] at h
      exact List.mem_cons_of_mem _ (ih h)

theorem mem_dreplace {α : Type} {d : List (String × α)} {k : String} {v : α}
    {p : String × α} (h : p ∈ dreplace d k v) : (p ∈ d ∧ p.1 ≠ k) ∨ p = (k, v) := by
  induction d with
  | nil => simp [dreplace] at h
  | cons q rest ih =>
    by_cases hq : q.1 = k
    · simp only [dreplace, if_pos hq, List.mem_cons] at h
      rcases h with h | h
      · right; exact h
      · rcases ih h with ⟨h1, h2⟩ | h'
        · exact Or.inl ⟨List.mem_cons_of_mem _ h1, h2⟩
        · exact Or.inr h'
    · simp only [dreplace, if_neg hq, List.mem_cons] at h
      rcases h with h | h
      · left
        subst h
        exact ⟨List.mem_cons_self _ _, hq⟩
      · rcases ih h with ⟨h1, h2⟩ | h'
        · exact Or.inl ⟨List.mem_cons_of_mem _ h1, h2⟩
        · exact Or.inr h'

theorem mem_dset {α : Type} {d : List (String × α)} {k : String} {v : α}
    {p : String × α} (h : p ∈ dset d k v) : (p ∈ d ∧ p.1 ≠ k) ∨ p = (k, v) := by
  unfold dset at h
  by_cases hh : dhas d k
  · rw [if_pos hh] at h
    exact mem_dreplace h
  · rw [if_neg hh] at h
    rcases List.mem_append.mp h with h1 | h1
    · exact Or.inl ⟨h1, not_mem_key_of_dhas_false (by simpa using hh) _ h1⟩
    · exact Or.inr (by simpa using h1)

theorem dhas_dreplace {α : Type} (d : List (String × α)) (k m : String) (v : α) :
    dhas (dreplace d k v) m = dhas d m := by
  induction d with
  | nil => rfl
  | cons q rest ih =>
    by_cases hq : q.1 = k
    · simp [dreplace, hq, dhas, ih]
    · simp [dreplace, hq, dhas, ih]

theorem dhas_append_single {α : Type} (d : List (String × α)) (k m : String) (v : α) :
    dhas (d ++ [(k, v)]) m = (dhas d m || (k == m)) := by
  induction d with
  | nil => simp [dhas]
  | cons q rest ih => simp [dhas, ih, Bool.or_assoc]

theorem dreplace_append {α : Type} (d d' : List (String × α)) (k : String) (v : α) :
    dreplace (d ++ d') k v = dreplace d k v ++ dreplace d' k v := by
  induction d with
  | nil => rfl
  | cons q rest ih => simp [dreplace, ih]

theorem dreplace_dreplace {α : Type} (d : List (String × α)) (k : String) (v v' : α) :
    dreplace (dreplace d k v) k v' = dreplace d k v' := by
  induction d with
  | nil => rfl
  | cons q rest ih =>
    by_cases hq : q.1 = k
    · simp [dreplace, hq, ih]
    · simp [dreplace, hq, ih]

theorem dset_dset {α : Type} (d : List (String × α)) (k : String) (v v' : α) :
    dset (dset d k v) k v' = dset d k v' := by
  by_cases hh : dhas d k
  · have h1 : dset d k v = dreplace d k v := by simp [dset, hh]
    have h2 : dhas (dreplace d k v) k = true := by rw [dhas_dreplace]; exact hh
    rw [h1]
    simp [dset, h2, hh, dreplace_dreplace]
  · have h1 : dset d k v = d ++ [(k, v)] := by simp [dset, hh]
    have h2 : dhas (d ++ [(k, v)]) k = true := by simp [dhas_append_single, hh]
    rw [h1]
    simp only [dset, h2, if_pos, hh, Bool.false_eq_true, if_false, if_neg]
    rw [dreplace_append]
    rw [dreplace_of_not_dhas (by simpa using hh)]
    simp [dreplace]

theorem dset_ne_nil {α : Type} (d : List (String × α)) (k : String) (v : α) :
    dset d k v ≠ [] := by
  unfold dset
  by_cases hh : dhas d k
  · rw [if_pos hh]
    cases d with
    | nil => simp [dhas] at hh
    | cons q rest => simp [dreplace]
  · rw [if_neg hh]
    simp

/-! ### Event-target and fold lemmas -/

theorem mem_removeEventListener {t : List Reg} {n : String} {cb : Wrapper} {r : Reg}
    (h : r ∈ removeEventListener t n cb) : r ∈ t ∧ ¬(r.name = n ∧ r.cb = cb) := by
  unfold removeEventListener at h
  rw [List.mem_filter] at h
  refine ⟨h.1, ?_⟩
  have h2 := h.2
  simp at h2
  intro hand
  rcases h2 with h2 | h2
  · exact h2 hand.1
  · exact h2 hand.2

theorem mem_removeEventListener_of {t : List Reg} {n : String} {cb : Wrapper} {r : Reg}
    (h : r ∈ t) (hne : ¬(r.name = n ∧ r.cb = cb)) : r ∈ removeEventListener t n cb := by
  unfold removeEventListener
  rw [List.mem_filter]
  refine ⟨h, ?_⟩
  simp only [Bool.not_eq_true']
  rw [Bool.and_eq_false_iff]
  by_cases h1 : r.name = n
  · right
    have h2 : r.cb ≠ cb := fun hc => hne ⟨h1, hc⟩
    simpa using h2
  · left
    simpa using h1

theorem addEventListener_fresh {t : List Reg} {n : String} {w : Wrapper} {o : Bool}
    (h : ∀ r ∈ t, r.cb ≠ w) :
    addEventListener t n w o = t ++ [{ name := n, cb := w, once := o }] := by
  have hany : t.any (fun r => r.name == n && r.cb == w) = false := by
    rw [List.any_eq_false]
    intro r hr
    simp only [Bool.and_eq_true, beq_iff_eq, not_and]
    intro _ hcb
    exact h r hr hcb
  unfold addEventListener
  rw [hany]
  simp

theorem fireFold_nil (n : String) (arr : List (Option Wrapper)) (t : List Reg) :
    fireFold n [] arr t = (arr, t) := rfl

theorem fireFold_cons (n : String) (i : Nat) (rest : List Nat)
    (arr : List (Option Wrapper)) (t : List Reg) :
    fireFold n (i :: rest) arr t =
      fireFold n rest (arr.set i none)
        (match arr.getD i none with
         | some w => removeEventListener t n w
         | none => t) := rfl

theorem fireFold_fst_length (n : String) (idxs : List Nat) (arr : List (Option Wrapper))
    (t : List Reg) : (fireFold n idxs arr t).1.length = arr.length := by
  induction idxs generalizing arr t with
  | nil => rfl
  | cons i rest ih =>
    rw [fireFold_cons, ih, List.length_set]

theorem fireFold_fst_getElem? (n : String) (idxs : List Nat) (arr : List (Option Wrapper))
    (t : List Reg) (j : Nat) :
    (fireFold n idxs arr t).1[j]? =
      if j ∈ idxs ∧ j < arr.length then some none else arr[j]? := by
  induction idxs generalizing arr t with
  | nil => simp [fireFold_nil]
  | cons i rest ih =>
    rw [fireFold_cons, ih, List.length_set, List.getElem?_set]
    by_cases h1 : j ∈ rest <;> by_cases h2 : j < arr.length <;> by_cases h3 : i = j <;>
      simp [h1, h2, h3, List.mem_cons, eq_comm] <;>
      first
        | omega
        | rw [List.getElem?_eq_none (by omega)]
        | rw [if_neg (by omega)]

theorem mem_fireFold_fst {n : String} {idxs : List Nat} {arr : List (Option Wrapper)}
    {t : List Reg} {x : Option Wrapper} (h : x ∈ (fireFold n idxs arr t).1) :
    x ∈ arr ∨ x = none := by
  induction idxs generalizing arr t with
  | nil => exact Or.inl h
  | cons i rest ih =>
    rw [fireFold_cons] at h
    rcases ih h with hx | hx
    · exact (List.mem_or_eq_of_mem_set hx).imp_right id
    · exact Or.inr hx

theorem fireFold_snd_subset {n : String} {idxs : List Nat} {arr : List (Option Wrapper)}
    {t : List Reg} {r : Reg} (h : r ∈ (fireFold n idxs arr t).2) : r ∈ t := by
  induction idxs generalizing arr t with
  | nil => exact h
  | cons i rest ih =>
    rw [fireFold_cons] at h
    have := ih h
    revert this
    cases hs : arr.getD i none with
    | some w => exact fun hh => (mem_removeEventListener hh).1
    | none => exact id

theorem mem_set_of_getD_ne {l : List (Option Wrapper)} {x : Option Wrapper} {i : Nat}
    (hx : x ∈ l) (hne : l.getD i none ≠ x) : x ∈ l.set i none := by
  rcases List.mem_iff_getElem.mp hx with ⟨j, hj, hget⟩
  rcases eq_or_ne j i with rfl | hji
  · exact absurd (by rw [List.getD_eq_getElem?_getD, List.getElem?_eq_getElem hj]; exact hget) hne
  · rw [List.mem_iff_getElem]
    refine ⟨j, by rw [List.length_set]; exact hj, ?_⟩
    rw [List.getElem_set_ne (Ne.symm hji)]
    exact hget

/-- If a registration for `n` survives the one-shot teardown loop and its
wrapper was in the listener array before the loop, the wrapper is still in the
array after the loop (the loop removed from the target every wrapper whose
slot it deleted). -/
theorem fireFold_corr {n : String} {idxs : List Nat} {arr : List (Option Wrapper)}
    {t : List Reg} {r : Reg} (hr : r ∈ (fireFold n idxs arr t).2) (hname : r.name = n)
    (hmem : some r.cb ∈ arr) : some r.cb ∈ (fireFold n idxs arr t).1 := by
  induction idxs generalizing arr t with
  | nil => exact hmem
  | cons i rest ih =>
    rw [fireFold_cons] at hr ⊢
    by_cases hslot : arr.getD i none = some r.cb
    · exfalso
      have hsub := fireFold_snd_subset hr
      rw [hslot] at hsub
      exact (mem_removeEventListener hsub).2 ⟨hname, rfl⟩
    · exact ih hr (mem_set_of_getD_ne hmem hslot)

/-- Every registration surviving the `off` removal loop was there before, and
if its name is the removed one then its wrapper was not among the stored
slots. -/
theorem off_fold_mem {arr : List (Option Wrapper)} {t : List Reg} {n : String} {r : Reg}
    (h : r ∈ arr.foldl (fun t slot => match slot with
      | some w => removeEventListener t n w
      | none => t) t) :
    r ∈ t ∧ ¬(r.name = n ∧ some r.cb ∈ arr) := by
  induction arr generalizing t with
  | nil => simpa using h
  | cons slot rest ih =>
    rw [List.foldl_cons] at h
    cases slot with
    | some w =>
      rcases ih h with ⟨h1, h2⟩
      have h1' := mem_removeEventListener h1
      refine ⟨h1'.1, ?_⟩
      rintro ⟨hn, hmem⟩
      rcases List.mem_cons.mp hmem with hw | hw
      · exact h1'.2 ⟨hn, Option.some.inj hw⟩
      · exact h2 ⟨hn, hw⟩
    | none =>
      rcases ih h with ⟨h1, h2⟩
      refine ⟨h1, ?_⟩
      rintro ⟨hn, hmem⟩
      rcases List.mem_cons.mp hmem with hw | hw
      · cases hw
      · exact h2 ⟨hn, hw⟩

/-! ### Canonical forms of `on` and `once` -/

theorem Eventful.on_eq (s : Eventful) (n : String) (fnc : Nat) :
    s.on n fnc =
      { _listeners := dset s._listeners n
          ((dget s._listeners n).getD [] ++ [some ⟨s.nextId, fnc⟩]),
        _onceListeners := s._onceListeners,
        _eventTarget := addEventListener s._eventTarget n ⟨s.nextId, fnc⟩ false,
        nextId := s.nextId + 1 } := by
  simp only [Eventful.on]
  by_cases h : dget s._listeners n = none
  · simp [h, dget_dset_self, dset_dset]
  · simp [h]

theorem Eventful.once_eq (s : Eventful) (n : String) (fnc : Nat) :
    s.once n fnc =
      { _listeners := dset s._listeners n
          ((dget s._listeners n).getD [] ++ [some ⟨s.nextId, fnc⟩]),
        _onceListeners := dset s._onceListeners n
          ((dget s._onceListeners n).getD [] ++ [((dget s._listeners n).getD []).length]),
        _eventTarget := addEventListener s._eventTarget n ⟨s.nextId, fnc⟩ true,
        nextId := s.nextId + 1 } := by
  simp only [Eventful.once]
  by_cases h1 : dget s._listeners n = none <;> by_cases h2 : dget s._onceListeners n = none <;>
    simp [h1, h2, dget_dset_self, dset_dset]

theorem Eventful.off_none {s : Eventful} {n : String}
    (h : dget s._listeners n = none) : s.off n = none := by
  unfold Eventful.off
  rw [h]

theorem Eventful.off_eq {s : Eventful} {n : String} {arr : List (Option Wrapper)}
    (h : dget s._listeners n = some arr) :
    s.off n = some
      { _listeners := dset (ddel s._listeners n) n [],
        _onceListeners := dset (ddel s._onceListeners n) n [],
        _eventTarget := if arr.length != 0 then
            arr.foldl (fun t slot => match slot with
              | some w => removeEventListener t n w
              | none => t) s._eventTarget
          else s._eventTarget,
        nextId := s.nextId } := by
  unfold Eventful.off
  rw [h]
  simp only [dget_ddel_self, removeEmptyElements]

theorem Eventful.fireEventCore_once_none {s : Eventful} {n : String}
    (h : dget s._onceListeners n = none) :
    s.fireEventCore n =
      some ({ s with _eventTarget := (dispatchEventCore s._eventTarget n).1 },
        (dispatchEventCore s._eventTarget n).2) := by
  unfold Eventful.fireEventCore
  rw [h]

theorem Eventful.fireEventCore_once_some {s : Eventful} {n : String} {idxs : List Nat}
    {arr : List (Option Wrapper)}
    (hO : dget s._onceListeners n = some idxs) (hL : dget s._listeners n = some arr) :
    s.fireEventCore n = some
      ({ _listeners := dset s._listeners n
            ((fireFold n idxs arr (dispatchEventCore s._eventTarget n).1).1.filter slotTruthy),
         _onceListeners := ddel s._onceListeners n,
         _eventTarget := (fireFold n idxs arr (dispatchEventCore s._eventTarget n).1).2,
         nextId := s.nextId },
       (dispatchEventCore s._eventTarget n).2) := by
  unfold Eventful.fireEventCore
  rw [hO, hL]
  rfl

/-! ### The invariant is preserved by every API call -/

theorem slotOk_mono {b b' : Nat} (hb : b ≤ b') {slot : Option Wrapper}
    (h : slotOk b slot) : slotOk b' slot := by
  cases slot with
  | some w => exact lt_of_lt_of_le h hb
  | none => exact h.elim

theorem slots_of_getD {s : Eventful}
    (h1 : ∀ p ∈ s._listeners, ∀ slot ∈ p.2, slotOk s.nextId slot)
    (n : String) : ∀ slot ∈ (dget s._listeners n).getD [], slotOk s.nextId slot := by
  cases hL : dget s._listeners n with
  | none => simp
  | some arr =>
    intro slot hslot
    exact h1 (n, arr) (dget_mem hL) slot hslot

theorem evInv_on {s : Eventful} (h : EvInv s) (n : String) (fnc : Nat) :
    EvInv (s.on n fnc) := by
  obtain ⟨h1, h2, h3, h4⟩ := h
  have hfresh : ∀ r ∈ s._eventTarget, r.cb ≠ (⟨s.nextId, fnc⟩ : Wrapper) := by
    intro r hr hc
    have hid := h3 r hr
    rw [hc] at hid
    exact lt_irrefl _ hid
  rw [Eventful.on_eq, addEventListener_fresh hfresh]
  refine ⟨?_, ?_, ?_, ?_⟩
  · intro p hp slot hslot
    rcases mem_dset hp with ⟨hpL, _⟩ | rfl
    · exact slotOk_mono (Nat.le_succ _) (h1 p hpL slot hslot)
    · rcases List.mem_append.mp hslot with hsl | hsl
      · exact slotOk_mono (Nat.le_succ _) (slots_of_getD h1 n slot hsl)
      · rw [List.mem_singleton.mp hsl]
        exact Nat.lt_succ_self _
  · intro q hq
    obtain ⟨arrq, harrq, hbound⟩ := h2 q hq
    by_cases hqn : q.1 = n
    · rw [hqn, dget_dset_self]
      refine ⟨_, rfl, ?_⟩
      intro i hi
      rw [List.length_append]
      have hAq : (dget s._listeners n).getD [] = arrq := by
        rw [← hqn, harrq]
        simp
      rw [hAq]
      exact lt_of_lt_of_le (hbound i hi) (by simp)
    · exact ⟨arrq, by rw [dget_dset_ne hqn]; exact harrq, hbound⟩
  · intro r hr
    rcases List.mem_append.mp hr with hr | hr
    · exact lt_trans (h3 r hr) (Nat.lt_succ_self _)
    · rw [List.mem_singleton.mp hr]
      exact Nat.lt_succ_self _
  · intro r hr
    rcases List.mem_append.mp hr with hr | hr
    · have h4r := h4 r hr
      unfold listenersOf at h4r ⊢
      by_cases hrn : r.name = n
      · rw [hrn, dget_dset_self]
        rw [hrn] at h4r
        exact List.mem_append_left _ h4r
      · rw [dget_dset_ne hrn]
        exact h4r
    · rw [List.mem_singleton.mp hr]
      unfold listenersOf
      rw [dget_dset_self]
      exact List.mem_append_right _ (List.mem_singleton.mpr rfl)

theorem evInv_once {s : Eventful} (h : EvInv s) (n : String) (fnc : Nat) :
    EvInv (s.once n fnc) := by
  obtain ⟨h1, h2, h3, h4⟩ := h
  have hfresh : ∀ r ∈ s._eventTarget, r.cb ≠ (⟨s.nextId, fnc⟩ : Wrapper) := by
    intro r hr hc
    have hid := h3 r hr
    rw [hc] at hid
    exact lt_irrefl _ hid
  rw [Eventful.once_eq, addEventListener_fresh hfresh]
  refine ⟨?_, ?_, ?_, ?_⟩
  · intro p hp slot hslot
    rcases mem_dset hp with ⟨hpL, _⟩ | rfl
    · exact slotOk_mono (Nat.le_succ _) (h1 p hpL slot hslot)
    · rcases List.mem_append.mp hslot with hsl | hsl
      · exact slotOk_mono (Nat.le_succ _) (slots_of_getD h1 n slot hsl)
      · rw [List.mem_singleton.mp hsl]
        exact Nat.lt_succ_self _
  · intro q hq
    rcases mem_dset hq with ⟨hqO, hqn⟩ | rfl
    · obtain ⟨arrq, harrq, hbound⟩ := h2 q hqO
      exact ⟨arrq, by rw [dget_dset_ne hqn]; exact harrq, hbound⟩
    · refine ⟨_, dget_dset_self .., ?_⟩
      intro i hi
      rw [List.length_append, List.length_singleton]
      rcases List.mem_append.mp hi with hi | hi
      · cases hB : dget s._onceListeners n with
        | none => rw [hB] at hi; cases hi
        | some B0 =>
          rw [hB] at hi
          obtain ⟨arrq, harrq, hbound⟩ := h2 (n, B0) (dget_mem hB)
          have harrA : (dget s._listeners n).getD [] = arrq := by
            simp only at harrq
            rw [harrq]
            simp
          rw [harrA]
          exact lt_of_lt_of_le (hbound i hi) (Nat.le_succ _)
      · rw [List.mem_singleton.mp hi]
        exact Nat.lt_succ_self _
  · intro r hr
    rcases List.mem_append.mp hr with hr | hr
    · exact lt_trans (h3 r hr) (Nat.lt_succ_self _)
    · rw [List.mem_singleton.mp hr]
      exact Nat.lt_succ_self _
  · intro r hr
    rcases List.mem_append.mp hr with hr | hr
    · have h4r := h4 r hr
      unfold listenersOf at h4r ⊢
      by_cases hrn : r.name = n
      · rw [hrn, dget_dset_self]
        rw [hrn] at h4r
        exact List.mem_append_left _ h4r
      · rw [dget_dset_ne hrn]
        exact h4r
    · rw [List.mem_singleton.mp hr]
      unfold listenersOf
      rw [dget_dset_self]
      exact List.mem_append_right _ (List.mem_singleton.mpr rfl)

theorem evInv_off {s s' : Eventful} (h : EvInv s) {n : String}
    (hoff : s.off n = some s') : EvInv s' := by
  obtain ⟨h1, h2, h3, h4⟩ := h
  cases hL : dget s._listeners n with
  | none => rw [Eventful.off_none hL] at hoff; cases hoff
  | some arr =>
    rw [Eventful.off_eq hL] at hoff
    injection hoff with hoff
    subst hoff
    have htsub : ∀ r, r ∈ (if arr.length != 0 then
        arr.foldl (fun t slot => match slot with
          | some w => removeEventListener t n w
          | none => t) s._eventTarget
      else s._eventTarget) → r ∈ s._eventTarget ∧ ¬(r.name = n ∧ some r.cb ∈ arr) := by
      intro r hr
      by_cases hlen : arr.length != 0
      · rw [if_pos hlen] at hr
        exact off_fold_mem hr
      · rw [if_neg hlen] at hr
        have harr : arr = [] := by
          simp at hlen
          exact hlen
        refine ⟨hr, ?_⟩
        rintro ⟨_, hmem⟩
        rw [harr] at hmem
        cases hmem
    refine ⟨?_, ?_, ?_, ?_⟩
    · intro p hp slot hslot
      rcases mem_dset hp with ⟨hpL, _⟩ | rfl
      · exact h1 p (mem_ddel hpL).1 slot hslot
      · cases hslot
    · intro q hq
      rcases mem_dset hq with ⟨hqO, hqn⟩ | rfl
      · obtain ⟨arrq, harrq, hbound⟩ := h2 q (mem_ddel hqO).1
        refine ⟨arrq, ?_, hbound⟩
        rw [dget_dset_ne hqn, dget_ddel_ne hqn]
        exact harrq
      · exact ⟨[], dget_dset_self .., by simp⟩
    · intro r hr
      exact h3 r (htsub r hr).1
    · intro r hr
      obtain ⟨hrt, hrn⟩ := htsub r hr
      have h4r := h4 r hrt
      unfold listenersOf at h4r ⊢
      by_cases hname : r.name = n
      · exfalso
        rw [hname, hL] at h4r
        simp at h4r
        exact hrn ⟨hname, h4r⟩
      · rw [dget_dset_ne hname, dget_ddel_ne hname]
        exact h4r

theorem evInv_fireEventCore {s s' : Eventful} (h : EvInv s) {n : String}
    {ws : List Wrapper} (hfire : s.fireEventCore n = some (s', ws)) : EvInv s' := by
  obtain ⟨h1, h2, h3, h4⟩ := h
  have htsub1 : ∀ r, r ∈ (dispatchEventCore s._eventTarget n).1 → r ∈ s._eventTarget := by
    intro r hr
    exact List.mem_of_mem_filter hr
  cases hO : dget s._onceListeners n with
  | none =>
    rw [Eventful.fireEventCore_once_none hO] at hfire
    injection hfire with hfire
    injection hfire with hs hws
    subst hs
    refine ⟨h1, h2, ?_, ?_⟩
    · intro r hr
      exact h3 r (htsub1 r hr)
    · intro r hr
      exact h4 r (htsub1 r hr)
  | some idxs =>
    cases hL : dget s._listeners n with
    | none =>
      exfalso
      obtain ⟨arrq, harrq, _⟩ := h2 (n, idxs) (dget_mem hO)
      simp only at harrq
      rw [hL] at harrq
      cases harrq
    | some arr =>
      rw [Eventful.fireEventCore_once_some hO hL] at hfire
      injection hfire with hfire
      injection hfire with hs hws
      subst hs
      refine ⟨?_, ?_, ?_, ?_⟩
      · intro p hp slot hslot
        rcases mem_dset hp with ⟨hpL, _⟩ | rfl
        · exact h1 p hpL slot hslot
        · rw [List.mem_filter] at hslot
          rcases mem_fireFold_fst hslot.1 with hsl | hsl
          · exact h1 (n, arr) (dget_mem hL) slot hsl
          · rw [hsl] at hslot
            cases hslot.2
      · intro q hq
        obtain ⟨hqO, hqn⟩ := mem_ddel hq
        obtain ⟨arrq, harrq, hbound⟩ := h2 q hqO
        refine ⟨arrq, ?_, hbound⟩
        rw [dget_dset_ne hqn]
        exact harrq
      · intro r hr
        exact h3 r (htsub1 r (fireFold_snd_subset hr))
      · intro r hr
        have hrt : r ∈ s._eventTarget := htsub1 r (fireFold_snd_subset hr)
        have h4r := h4 r hrt
        unfold listenersOf at h4r ⊢
        by_cases hname : r.name = n
        · rw [hname, dget_dset_self]
          rw [hname, hL] at h4r
          simp only [Option.getD_some] at h4r ⊢
          have hcorr := fireFold_corr hr hname h4r
          rw [List.mem_filter]
          exact ⟨hcorr, rfl⟩
        · rw [dget_dset_ne hname]
          exact h4r

theorem evInv_applyOp {s : Eventful} (h : EvInv s) (op : Op) : EvInv (applyOp s op) := by
  cases op with
  | evOn n f => exact evInv_on h n f
  | evOnce n f => exact evInv_once h n f
  | evOff n =>
    show EvInv ((s.off n).getD s)
    cases hoff : s.off n with
    | none => exact h
    | some s' => exact evInv_off h hoff
  | evFire n =>
    cases hfc : s.fireEventCore n with
    | none =>
      exfalso
      obtain ⟨h1, h2, h3, h4⟩ := h
      cases hO : dget s._onceListeners n with
      | none => rw [Eventful.fireEventCore_once_none hO] at hfc; cases hfc
      | some idxs =>
        cases hL : dget s._listeners n with
        | none =>
          obtain ⟨arrq, harrq, _⟩ := h2 (n, idxs) (dget_mem hO)
          simp only at harrq
          rw [hL] at harrq
          cases harrq
        | some arr =>
          rw [Eventful.fireEventCore_once_some hO hL] at hfc
          cases hfc
    | some p =>
      show EvInv (match s.fireEventCore n with
        | some (s', _) => s'
        | none => { s with _eventTarget := (dispatchEventCore s._eventTarget n).1 })
      rw [hfc]
      exact evInv_fireEventCore h (by rw [hfc])

theorem evInv_init : EvInv Eventful.init := by
  refine ⟨?_, ?_, ?_, ?_⟩ <;> intro x hx <;> cases hx

theorem evInv_runFrom {s : Eventful} (h : EvInv s) (ops : List Op) :
    EvInv (runFrom s ops) := by
  induction ops generalizing s with
  | nil => exact h
  | cons op rest ih =>
    exact ih (evInv_applyOp h op)

theorem evInv_runOps (ops : List Op) : EvInv (runOps ops) :=
  evInv_runFrom evInv_init ops

theorem reachable_evInv {s : Eventful} (h : Reachable s) : EvInv s := by
  obtain ⟨ops, hops⟩ := h
  rw [← hops]
  exact evInv_runOps ops

/-! ### Claim theorems -/

/-- C1: the claim says that for every event name with no registrations,
`off(name)` succeeds as a no-op.  The code contradicts this: on a freshly
constructed instance (where no listener was ever registered for any name)
`off` reads `this._listeners[name].length` with `this._listeners[name]`
`undefined`, and throws for every name. -/
theorem c1_off_unregistered_throws (n : String) : Eventful.init.off n = none := rfl

/-- Helper: `hasListeners` is exactly key-nonemptiness of the table. -/
theorem hasListeners_iff (s : Eventful) : s.hasListeners = true ↔ s._listeners ≠ [] := by
  unfold Eventful.hasListeners
  rw [Bool.not_eq_true']
  rw [← Bool.not_eq_true (s._listeners.isEmpty)]
  simp [List.isEmpty_iff]

/-- C2 counterexample: after `on("a", f)` then `off("a")` the table has no
event name with an entry (its only key is bound to the empty sequence), yet
`hasListeners()` returns `true` — so `hasListeners` is not "some name has at
least one entry", and it does not return to `false` after `off` removes the
only registrations. -/
theorem c2_hasListeners_counterexample :
    ((Eventful.init.on "a" 0).off "a").isSome = true ∧
    (((Eventful.init.on "a" 0).off "a").getD Eventful.init).hasListeners = true ∧
    ∀ p ∈ (((Eventful.init.on "a" 0).off "a").getD Eventful.init)._listeners, p.2 = [] := by
  decide

/-- C2 (amended): `hasListeners()` is a pure query returning whether the
listener table contains at least one event-name key, even a key bound to an
empty sequence.  It returns `false` on a fresh instance, `true` after any
`on`/`once`, and still `true` after a successful `off`, because `off`
re-binds the name to an empty sequence instead of removing the key. -/
theorem c2_hasListeners_amended :
    Eventful.init.hasListeners = false ∧
    (∀ s : Eventful, s.hasListeners = true ↔ s._listeners ≠ []) ∧
    (∀ (s : Eventful) (n : String) (f : Nat), (s.on n f).hasListeners = true) ∧
    (∀ (s : Eventful) (n : String) (f : Nat), (s.once n f).hasListeners = true) ∧
    (∀ (s s' : Eventful) (n : String), s.off n = some s' → s'.hasListeners = true) := by
  refine ⟨rfl, hasListeners_iff, ?_, ?_, ?_⟩
  · intro s n f
    rw [hasListeners_iff, Eventful.on_eq]
    change dset _ _ _ ≠ []
    exact dset_ne_nil _ _ _
  · intro s n f
    rw [hasListeners_iff, Eventful.once_eq]
    change dset _ _ _ ≠ []
    exact dset_ne_nil _ _ _
  · intro s s' n hoff
    cases hL : dget s._listeners n with
    | none => rw [Eventful.off_none hL] at hoff; cases hoff
    | some arr =>
      rw [Eventful.off_eq hL] at hoff
      injection hoff with hoff
      rw [hasListeners_iff, ← hoff]
      change dset _ _ _ ≠ []
      exact dset_ne_nil _ _ _

/-- C2 witness: the amended off-clause holds at a concrete input. -/
theorem c2_hasListeners_amended_witness :
    (((Eventful.init.on "a" 0).off "a").getD Eventful.init).hasListeners = true :=
  c2_hasListeners_amended.2.2.2.2 (Eventful.init.on "a" 0)
    (((Eventful.init.on "a" 0).off "a").getD Eventful.init) "a" (by decide)

/-- C9: `Eventify(obj)` returns the same object (its own data properties are
untouched) now carrying the Eventful capability with a freshly initialized
state; it is not idempotent: applying it to an object that already carries
Eventful state (for example one with a registration made after a first
`Eventify`) re-runs the initializer and resets the state, discarding the
registrations. -/
theorem c9_eventify_resets (obj : EvObject) (s : Eventful) :
    (Eventify obj).fields = obj.fields ∧
    (Eventify obj).eventfulProto = true ∧
    (Eventify obj).state = some Eventful.init ∧
    Eventify { obj with state := some s } =
      { fields := obj.fields, eventfulProto := true, state := some Eventful.init } ∧
    (Eventify { obj with state := some (Eventful.init.on "e" 0) }).state ≠
      ({ obj with state := some (Eventful.init.on "e" 0) } : EvObject).state := by
  refine ⟨rfl, rfl, rfl, rfl, ?_⟩
  show some Eventful.init ≠ some (Eventful.init.on "e" 0)
  decide

/-- C10: after a successful `off(name)` the key `name` is not removed from
the listener table: it stays present bound to an empty sequence, so
`hasListeners()` is `true` and `getListeners()` still exposes an entry for
`name` with zero listeners. -/
theorem c10_off_keeps_key {s : Eventful} {n : String} {arr : List (Option Wrapper)}
    (h : dget s._listeners n = some arr) :
    ∃ s', s.off n = some s' ∧
      dget s'._listeners n = some [] ∧
      s'.hasListeners = true ∧
      dget s'.getListeners n = some [] := by
  refine ⟨_, Eventful.off_eq h, ?_, ?_, ?_⟩
  · exact dget_dset_self ..
  · rw [hasListeners_iff]
    change dset _ _ _ ≠ []
    exact dset_ne_nil _ _ _
  · exact dget_dset_self ..

/-- C10 witness: the hypothesis is satisfiable at a concrete input. -/
theorem c10_off_keeps_key_witness :
    ((Eventful.init.on "a" 0).off "a").isSome = true := by
  obtain ⟨s', hs', _, _, _⟩ :=
    @c10_off_keeps_key (Eventful.init.on "a" 0) "a" [some ⟨0, 0⟩] (by decide)
  rw [hs']
  rfl

/-- C8: in every state reachable by any sequence of `on`/`once`/`off`/
`fireEvent` calls from a fresh instance, every index stored in the one-shot
table for a name is a valid position strictly below the length of that
name's listener array, and the listener array contains no holes. -/
theorem c8_tables_consistent (ops : List Op) (n : String) :
    (∀ i ∈ onceOf (runOps ops) n, i < (listenersOf (runOps ops) n).length) ∧
    (∀ slot ∈ listenersOf (runOps ops) n, slot.isSome = true) := by
  obtain ⟨h1, h2, _, _⟩ := evInv_runOps ops
  constructor
  · intro i hi
    unfold onceOf at hi
    cases hO : dget (runOps ops)._onceListeners n with
    | none => rw [hO] at hi; cases hi
    | some idxs =>
      rw [hO] at hi
      simp only [Option.getD_some] at hi
      obtain ⟨arr, harr, hbound⟩ := h2 (n, idxs) (dget_mem hO)
      unfold listenersOf
      simp only at harr
      rw [harr]
      simpa using hbound i hi
  · intro slot hslot
    unfold listenersOf at hslot
    cases hL : dget (runOps ops)._listeners n with
    | none => rw [hL] at hslot; cases hslot
    | some arr =>
      rw [hL] at hslot
      simp only [Option.getD_some] at hslot
      have hok := h1 (n, arr) (dget_mem hL) slot hslot
      cases slot with
      | some w => rfl
      | none => exact hok.elim

/-! ### Helpers for the dispatch claims -/

theorem fireEventCore_invoked {s : Eventful} {n : String} {s' : Eventful} {ws : List Wrapper}
    (h : s.fireEventCore n = some (s', ws)) :
    ws = (s._eventTarget.filter (fun r => r.name == n)).map Reg.cb := by
  cases hO : dget s._onceListeners n with
  | none =>
    rw [Eventful.fireEventCore_once_none hO] at h
    injection h with h
    injection h with _ hws
    exact hws.symm
  | some idxs =>
    cases hL : dget s._listeners n with
    | some arr =>
      rw [Eventful.fireEventCore_once_some hO hL] at h
      injection h with h
      injection h with _ hws
      exact hws.symm
    | none =>
      unfold Eventful.fireEventCore at h
      rw [hO, hL] at h
      cases idxs with
      | nil =>
        injection h with h
        injection h with _ hws
        exact hws.symm
      | cons i rest => cases h

theorem fireEventCore_target_subset {s : Eventful} {n : String} {s' : Eventful}
    {ws : List Wrapper} (h : s.fireEventCore n = some (s', ws)) :
    ∀ r ∈ s'._eventTarget, r ∈ s._eventTarget := by
  have hd1 : ∀ r ∈ (dispatchEventCore s._eventTarget n).1, r ∈ s._eventTarget := by
    intro r hr
    exact List.mem_of_mem_filter hr
  cases hO : dget s._onceListeners n with
  | none =>
    rw [Eventful.fireEventCore_once_none hO] at h
    injection h with h
    injection h with hs _
    subst hs
    exact hd1
  | some idxs =>
    cases hL : dget s._listeners n with
    | some arr =>
      rw [Eventful.fireEventCore_once_some hO hL] at h
      injection h with h
      injection h with hs _
      subst hs
      intro r hr
      exact hd1 r (fireFold_snd_subset hr)
    | none =>
      unfold Eventful.fireEventCore at h
      rw [hO, hL] at h
      cases idxs with
      | nil =>
        injection h with h
        injection h with hs _
        subst hs
        exact hd1
      | cons i rest => cases h

theorem fireEventCore_nextId {s : Eventful} {n : String} {s' : Eventful}
    {ws : List Wrapper} (h : s.fireEventCore n = some (s', ws)) :
    s'.nextId = s.nextId := by
  cases hO : dget s._onceListeners n with
  | none =>
    rw [Eventful.fireEventCore_once_none hO] at h
    injection h with h
    injection h with hs _
    rw [← hs]
  | some idxs =>
    cases hL : dget s._listeners n with
    | some arr =>
      rw [Eventful.fireEventCore_once_some hO hL] at h
      injection h with h
      injection h with hs _
      rw [← hs]
    | none =>
      unfold Eventful.fireEventCore at h
      rw [hO, hL] at h
      cases idxs with
      | nil =>
        injection h with h
        injection h with hs _
        rw [← hs]
      | cons i rest => cases h

theorem off_target_subset {s : Eventful} {n : String} {s' : Eventful}
    (h : s.off n = some s') : ∀ r ∈ s'._eventTarget, r ∈ s._eventTarget := by
  cases hL : dget s._listeners n with
  | none => rw [Eventful.off_none hL] at h; cases h
  | some arr =>
    rw [Eventful.off_eq hL] at h
    injection h with h
    subst h
    intro r hr
    by_cases hlen : arr.length != 0
    · rw [if_pos hlen] at hr
      exact (off_fold_mem hr).1
    · rw [if_neg hlen] at hr
      exact hr

theorem off_nextId {s : Eventful} {n : String} {s' : Eventful}
    (h : s.off n = some s') : s'.nextId = s.nextId := by
  cases hL : dget s._listeners n with
  | none => rw [Eventful.off_none hL] at h; cases h
  | some arr =>
    rw [Eventful.off_eq hL] at h
    injection h with h
    rw [← h]

theorem mem_addEventListener {t : List Reg} {n : String} {cb : Wrapper} {o : Bool} {r : Reg}
    (h : r ∈ addEventListener t n cb o) : r ∈ t ∨ r = { name := n, cb := cb, once := o } := by
  unfold addEventListener at h
  by_cases hany : t.any (fun r => r.name == n && r.cb == cb)
  · rw [if_pos hany] at h
    exact Or.inl h
  · rw [if_neg hany] at h
    rcases List.mem_append.mp h with h | h
    · exact Or.inl h
    · exact Or.inr (List.mem_singleton.mp h)

/-- Once a wrapper is gone from the event target and its id is below the
allocation counter, no later API call can ever put it back. -/
def noWrapper (w : Wrapper) (s : Eventful) : Prop :=
  (∀ r ∈ s._eventTarget, r.cb ≠ w) ∧ w.id < s.nextId

theorem noWrapper_applyOp {w : Wrapper} {s : Eventful} (h : noWrapper w s) (op : Op) :
    noWrapper w (applyOp s op) := by
  obtain ⟨ht, hid⟩ := h
  cases op with
  | evOn n f =>
    show noWrapper w (s.on n f)
    rw [Eventful.on_eq]
    refine ⟨?_, lt_trans hid (Nat.lt_succ_self _)⟩
    intro r hr
    rcases mem_addEventListener hr with hr | hr
    · exact ht r hr
    · rw [hr]
      intro hc
      rw [← hc] at hid
      exact lt_irrefl _ hid
  | evOnce n f =>
    show noWrapper w (s.once n f)
    rw [Eventful.once_eq]
    refine ⟨?_, lt_trans hid (Nat.lt_succ_self _)⟩
    intro r hr
    rcases mem_addEventListener hr with hr | hr
    · exact ht r hr
    · rw [hr]
      intro hc
      rw [← hc] at hid
      exact lt_irrefl _ hid
  | evOff n =>
    show noWrapper w ((s.off n).getD s)
    cases hoff : s.off n with
    | none => exact ⟨ht, hid⟩
    | some s' =>
      refine ⟨?_, by rw [Option.getD_some, off_nextId hoff]; exact hid⟩
      intro r hr
      rw [Option.getD_some] at hr
      exact ht r (off_target_subset hoff r hr)
  | evFire n =>
    show noWrapper w (match s.fireEventCore n with
      | some (s', _) => s'
      | none => { s with _eventTarget := (dispatchEventCore s._eventTarget n).1 })
    cases hfc : s.fireEventCore n with
    | none =>
      refine ⟨?_, hid⟩
      intro r hr
      exact ht r (List.mem_of_mem_filter hr)
    | some p =>
      obtain ⟨s', ws⟩ := p
      show noWrapper w s'
      refine ⟨?_, ?_⟩
      · intro r hr
        exact ht r (fireEventCore_target_subset hfc r hr)
      · rw [fireEventCore_nextId hfc]
        exact hid

theorem noWrapper_runFrom {w : Wrapper} {s : Eventful} (h : noWrapper w s) (ops : List Op) :
    noWrapper w (runFrom s ops) := by
  induction ops generalizing s with
  | nil => exact h
  | cons op rest ih => exact ih (noWrapper_applyOp h op)

/-- C4: for a callback just registered via `on(name, f)` (and still
registered), `fireEvent(name, data)` invokes its wrapper exactly once, and
every invoked listener receives an event-like value whose `detail` equals
`data`, defaulting to the empty object when `data` is omitted. -/
theorem c4_on_fire_invokes_once {D : Type} (hce : Bool) (emp : D) (s : Eventful)
    (hs : Reachable s) (n : String) (f : Nat) (data : Option D) :
    ∃ s2 inv, (s.on n f).fireEvent hce emp n data = some (s2, inv) ∧
      (inv.map Prod.fst).count ⟨s.nextId, f⟩ = 1 ∧
      ∀ p ∈ inv, p.2 = { name := n, detail := data.getD emp } := by
  obtain ⟨h1, h2, h3, h4⟩ := reachable_evInv hs
  have hfresh : ∀ r ∈ s._eventTarget, r.cb ≠ (⟨s.nextId, f⟩ : Wrapper) := by
    intro r hr hc
    have hid := h3 r hr
    rw [hc] at hid
    exact lt_irrefl _ hid
  have htgt : (s.on n f)._eventTarget =
      s._eventTarget ++ [{ name := n, cb := ⟨s.nextId, f⟩, once := false }] := by
    rw [Eventful.on_eq]
    exact addEventListener_fresh hfresh
  have hL1 : dget (s.on n f)._listeners n =
      some ((dget s._listeners n).getD [] ++ [some ⟨s.nextId, f⟩]) := by
    rw [Eventful.on_eq]
    exact dget_dset_self ..
  have hcore : ∃ s2 ws, (s.on n f).fireEventCore n = some (s2, ws) := by
    cases hO : dget (s.on n f)._onceListeners n with
    | none => exact ⟨_, _, Eventful.fireEventCore_once_none hO⟩
    | some idxs => exact ⟨_, _, Eventful.fireEventCore_once_some hO hL1⟩
  obtain ⟨s2, ws, hcore⟩ := hcore
  have hws := fireEventCore_invoked hcore
  rw [htgt] at hws
  have hcount : ws.count ⟨s.nextId, f⟩ = 1 := by
    rw [hws, List.filter_append, List.map_append, List.count_append]
    have hzero :
        ((s._eventTarget.filter (fun r => r.name == n)).map Reg.cb).count
          (⟨s.nextId, f⟩ : Wrapper) = 0 := by
      rw [List.count_eq_zero]
      intro hmem
      rw [List.mem_map] at hmem
      obtain ⟨r, hr, hcb⟩ := hmem
      exact hfresh r (List.mem_of_mem_filter hr) hcb
    rw [hzero]
    simp [List.count_cons]
  refine ⟨s2, ws.map (fun w => (w, createEvent hce emp n data)), ?_, ?_, ?_⟩
  · unfold Eventful.fireEvent
    rw [hcore]
  · rw [List.map_map]
    have hcomp : (Prod.fst ∘ fun w : Wrapper => (w, createEvent hce emp n data)) = id := rfl
    rw [hcomp, List.map_id]
    exact hcount
  · intro p hp
    rw [List.mem_map] at hp
    obtain ⟨w, _, hpw⟩ := hp
    rw [← hpw]
    show createEvent hce emp n data = _
    unfold createEvent
    cases hce <;> rfl

/-- C4 witness: the reachability hypothesis is satisfiable at a concrete
input and the conclusion evaluates. -/
theorem c4_on_fire_invokes_once_witness :
    ((Eventful.init.on "ping" 3).fireEvent true (0 : Nat) "ping" (some 7)).isSome = true := by
  obtain ⟨s2, inv, hfe, _, _⟩ :=
    c4_on_fire_invokes_once true (0 : Nat) Eventful.init ⟨[], rfl⟩ "ping" 3 (some 7)
  rw [hfe]
  rfl

/-- C6: registration imposes no uniqueness constraint and preserves order:
registering `f` then `g` for the same name (whether or not `f = g`) creates
two independent entries at the tail of the listener sequence, and a single
`fireEvent` for that name invokes both wrappers, in registration order,
after the previously registered listeners. -/
theorem c6_registration_order {D : Type} (hce : Bool) (emp : D) (s : Eventful)
    (hs : Reachable s) (n : String) (f g : Nat) (data : Option D) :
    (∃ pre, listenersOf ((s.on n f).on n g) n =
        pre ++ [some ⟨s.nextId, f⟩, some ⟨s.nextId + 1, g⟩]) ∧
    (∃ s3 inv, ((s.on n f).on n g).fireEvent hce emp n data = some (s3, inv) ∧
      ∃ base, inv.map Prod.fst = base ++ [⟨s.nextId, f⟩, ⟨s.nextId + 1, g⟩] ∧
        (⟨s.nextId, f⟩ : Wrapper) ∉ base ∧ (⟨s.nextId + 1, g⟩ : Wrapper) ∉ base) := by
  obtain ⟨h1, h2, h3, h4⟩ := reachable_evInv hs
  obtain ⟨h1', h2', h3', h4'⟩ := evInv_on ⟨h1, h2, h3, h4⟩ n f
  have hfresh1 : ∀ r ∈ s._eventTarget, r.cb ≠ (⟨s.nextId, f⟩ : Wrapper) := by
    intro r hr hc
    have hid := h3 r hr
    rw [hc] at hid
    exact lt_irrefl _ hid
  have hnext1 : (s.on n f).nextId = s.nextId + 1 := by rw [Eventful.on_eq]
  have hfresh2 : ∀ r ∈ (s.on n f)._eventTarget, r.cb ≠ (⟨s.nextId + 1, g⟩ : Wrapper) := by
    intro r hr hc
    have hid := h3' r hr
    rw [hc, hnext1] at hid
    exact lt_irrefl _ hid
  have htgt1 : (s.on n f)._eventTarget =
      s._eventTarget ++ [{ name := n, cb := ⟨s.nextId, f⟩, once := false }] := by
    rw [Eventful.on_eq s n f]
    exact addEventListener_fresh hfresh1
  have htgt2 : ((s.on n f).on n g)._eventTarget =
      (s.on n f)._eventTarget ++ [{ name := n, cb := ⟨s.nextId + 1, g⟩, once := false }] := by
    rw [Eventful.on_eq (s.on n f) n g]
    change addEventListener (s.on n f)._eventTarget n ⟨(s.on n f).nextId, g⟩ false = _
    rw [hnext1]
    exact addEventListener_fresh hfresh2
  have hL1 : dget (s.on n f)._listeners n =
      some ((dget s._listeners n).getD [] ++ [some ⟨s.nextId, f⟩]) := by
    rw [Eventful.on_eq s n f]
    exact dget_dset_self ..
  have hL2 : dget ((s.on n f).on n g)._listeners n =
      some (((dget s._listeners n).getD [] ++ [some ⟨s.nextId, f⟩]) ++
        [some ⟨s.nextId + 1, g⟩]) := by
    rw [Eventful.on_eq (s.on n f) n g]
    change dget (dset (s.on n f)._listeners n
      ((dget (s.on n f)._listeners n).getD [] ++ [some ⟨(s.on n f).nextId, g⟩])) n = _
    rw [hnext1, hL1]
    exact dget_dset_self ..
  constructor
  · refine ⟨(dget s._listeners n).getD [], ?_⟩
    unfold listenersOf
    rw [hL2]
    simp [List.append_assoc]
  · have hcore : ∃ s3 ws, ((s.on n f).on n g).fireEventCore n = some (s3, ws) := by
      cases hO : dget ((s.on n f).on n g)._onceListeners n with
      | none => exact ⟨_, _, Eventful.fireEventCore_once_none hO⟩
      | some idxs => exact ⟨_, _, Eventful.fireEventCore_once_some hO hL2⟩
    obtain ⟨s3, ws, hcore⟩ := hcore
    have hws := fireEventCore_invoked hcore
    rw [htgt2, htgt1] at hws
    refine ⟨s3, ws.map (fun w => (w, createEvent hce emp n data)), ?_, ?_⟩
    · unfold Eventful.fireEvent
      rw [hcore]
    · refine ⟨(s._eventTarget.filter (fun r => r.name == n)).map Reg.cb, ?_, ?_, ?_⟩
      · rw [List.map_map]
        have hcomp : (Prod.fst ∘ fun w : Wrapper => (w, createEvent hce emp n data)) = id := rfl
        rw [hcomp, List.map_id, hws]
        simp [List.filter_append, List.map_append, List.append_assoc]
      · intro hmem
        rw [List.mem_map] at hmem
        obtain ⟨r, hr, hcb⟩ := hmem
        exact hfresh1 r (List.mem_of_mem_filter hr) hcb
      · intro hmem
        rw [List.mem_map] at hmem
        obtain ⟨r, hr, hcb⟩ := hmem
        have hid := h3 r (List.mem_of_mem_filter hr)
        rw [hcb] at hid
        have hlt : s.nextId + 1 < s.nextId := hid
        omega

/-- C6 witness: the hypothesis is satisfiable at a concrete input. -/
theorem c6_registration_order_witness :
    ∃ pre, listenersOf ((Eventful.init.on "e" 5).on "e" 5) "e" =
      pre ++ [some ⟨0, 5⟩, some ⟨1, 5⟩] :=
  (c6_registration_order true (0 : Nat) Eventful.init ⟨[], rfl⟩ "e" 5 5 none).1

/-- C7: firing an event name with zero currently-registered listeners
(including names never registered) still performs the dispatch, invokes no
listeners, raises no error, and leaves the observable listener state (the
listener table, the per-name one-shot index sequences and the event target)
unchanged. -/
theorem c7_fire_without_listeners {D : Type} (hce : Bool) (emp : D) (s : Eventful)
    (hs : Reachable s) (n : String) (data : Option D)
    (h : dget s._listeners n = none ∨ dget s._listeners n = some []) :
    ∃ s', s.fireEvent hce emp n data = some (s', []) ∧
      (∀ m, dget s'.getListeners m = dget s.getListeners m) ∧
      (∀ m, onceOf s' m = onceOf s m) ∧
      s'._eventTarget = s._eventTarget := by
  obtain ⟨h1, h2, h3, h4⟩ := reachable_evInv hs
  have htno : ∀ r ∈ s._eventTarget, r.name ≠ n := by
    intro r hr hrn
    have h4r := h4 r hr
    unfold listenersOf at h4r
    rw [hrn] at h4r
    rcases h with h | h <;> rw [h] at h4r <;> simp at h4r
  have hd1 : (dispatchEventCore s._eventTarget n).1 = s._eventTarget := by
    show s._eventTarget.filter _ = s._eventTarget
    rw [List.filter_eq_self]
    intro r hr
    simp [htno r hr]
  have hd2 : (dispatchEventCore s._eventTarget n).2 = [] := by
    show (s._eventTarget.filter _).map Reg.cb = []
    rw [List.map_eq_nil, List.filter_eq_nil]
    intro r hr
    simp [htno r hr]
  cases hO : dget s._onceListeners n with
  | none =>
    refine ⟨{ s with _eventTarget := (dispatchEventCore s._eventTarget n).1 }, ?_, ?_, ?_, ?_⟩
    · unfold Eventful.fireEvent
      rw [Eventful.fireEventCore_once_none hO, hd2]
      rfl
    · intro m
      rfl
    · intro m
      rfl
    · exact hd1
  | some idxs =>
    obtain ⟨arr, harr, hbound⟩ := h2 (n, idxs) (dget_mem hO)
    simp only at harr
    rcases h with h | h
    · rw [h] at harr
      cases harr
    · rw [h] at harr
      injection harr with he
      subst he
      have hidxs : idxs = [] := by
        cases idxs with
        | nil => rfl
        | cons i rest =>
          have hlt := hbound i (List.mem_cons_self i rest)
          simp at hlt
      subst hidxs
      refine ⟨{ _listeners := (dset s._listeners n ((fireFold n [] [] (dispatchEventCore s._eventTarget n).1).1.filter slotTruthy)), _onceListeners := (ddel s._onceListeners n), _eventTarget := ((fireFold n [] [] (dispatchEventCore s._eventTarget n).1).2), nextId := s.nextId }, ?_, ?_, ?_, ?_⟩
      · unfold Eventful.fireEvent
        rw [Eventful.fireEventCore_once_some hO h, hd2]
        rfl
      · intro m
        show dget (dset s._listeners n
          ((fireFold n [] [] (dispatchEventCore s._eventTarget n).1).1.filter slotTruthy)) m =
          dget s._listeners m
        rw [fireFold_nil]
        by_cases hm : m = n
        · subst hm
          rw [dget_dset_self, h]
          rfl
        · exact dget_dset_ne hm
      · intro m
        unfold onceOf
        by_cases hm : m = n
        · subst hm
          show (dget (ddel s._onceListeners m) m).getD [] = _
          rw [dget_ddel_self, hO]
          rfl
        · show (dget (ddel s._onceListeners n) m).getD [] = _
          rw [dget_ddel_ne hm]
      · show (fireFold n [] [] (dispatchEventCore s._eventTarget n).1).2 = s._eventTarget
        rw [fireFold_nil]
        exact hd1

/-- C7 witness: the hypotheses are satisfiable at a concrete input. -/
theorem c7_fire_without_listeners_witness :
    (Eventful.init.fireEvent true (0 : Nat) "missing" (some 1)).isSome = true := by
  obtain ⟨s', hfe, _, _, _⟩ :=
    c7_fire_without_listeners true (0 : Nat) Eventful.init ⟨[], rfl⟩ "missing" (some 1)
      (Or.inl rfl)
  rw [hfe]
  rfl

/-- Firing a name whose listener and one-shot entries are both the empty
sequence and that has no event-target registrations invokes nothing and
succeeds. -/
theorem fire_on_cleared {D : Type} {s : Eventful} {n : String} (hce : Bool) (emp : D)
    (data : Option D) (hO : dget s._onceListeners n = some [])
    (hL : dget s._listeners n = some [])
    (ht : ∀ r ∈ s._eventTarget, r.name ≠ n) :
    ∃ s'', s.fireEvent hce emp n data = some (s'', []) := by
  have hd2 : (dispatchEventCore s._eventTarget n).2 = [] := by
    show (s._eventTarget.filter _).map Reg.cb = []
    rw [List.map_eq_nil, List.filter_eq_nil]
    intro r hr
    simp [ht r hr]
  refine ⟨{ _listeners := (dset s._listeners n ((fireFold n [] [] (dispatchEventCore s._eventTarget n).1).1.filter slotTruthy)), _onceListeners := (ddel s._onceListeners n), _eventTarget := ((fireFold n [] [] (dispatchEventCore s._eventTarget n).1).2), nextId := s.nextId }, ?_⟩
  unfold Eventful.fireEvent
  rw [Eventful.fireEventCore_once_some hO hL, hd2]
  rfl

/-- C5: for a name with at least one registration, `off(name)` removes all
listeners, persistent and one-shot: each is unregistered from the event
target (no registration for the name survives), both table entries are
cleared to empty sequences, and a subsequent `fireEvent(name, data)` invokes
zero listeners and raises no error. -/
theorem c5_off_removes_all {D : Type} (hce : Bool) (emp : D) (s : Eventful)
    (hs : Reachable s) (n : String) (arr : List (Option Wrapper)) (data : Option D)
    (hL : dget s._listeners n = some arr) (hne : arr ≠ []) :
    ∃ s', s.off n = some s' ∧
      dget s'._listeners n = some [] ∧
      dget s'._onceListeners n = some [] ∧
      (∀ r ∈ s'._eventTarget, r.name ≠ n) ∧
      ∃ s'', s'.fireEvent hce emp n data = some (s'', []) := by
  obtain ⟨h1, h2, h3, h4⟩ := reachable_evInv hs
  have hlen : (arr.length != 0) = true := by
    simp only [bne_iff_ne, ne_eq, List.length_eq_zero]
    exact hne
  have hoff := Eventful.off_eq hL
  rw [if_pos hlen] at hoff
  have htno : ∀ r ∈ arr.foldl (fun t slot => match slot with
      | some w => removeEventListener t n w
      | none => t) s._eventTarget, r.name ≠ n := by
    intro r hr hrn
    obtain ⟨hrt, hno⟩ := off_fold_mem hr
    have h4r := h4 r hrt
    unfold listenersOf at h4r
    rw [hrn, hL] at h4r
    simp only [Option.getD_some] at h4r
    exact hno ⟨hrn, h4r⟩
  refine ⟨_, hoff, dget_dset_self .., dget_dset_self .., htno, ?_⟩
  apply fire_on_cleared
  · exact dget_dset_self ..
  · exact dget_dset_self ..
  · exact htno

/-- C5 witness: the hypotheses are satisfiable at a concrete input. -/
theorem c5_off_removes_all_witness :
    ((Eventful.init.on "b" 1).off "b").isSome = true := by
  obtain ⟨s', hoff, _, _, _, _⟩ :=
    c5_off_removes_all true (0 : Nat) (Eventful.init.on "b" 1) ⟨[Op.evOn "b" 1], rfl⟩ "b"
      [some ⟨0, 1⟩] (some 2) (by decide) (by decide)
  rw [hoff]
  rfl

/-- C3: a callback registered via `once(name, f)` is invoked by the next
`fireEvent(name, ...)`; after that first fire its entry is removed from the
listener table (absent from `getListeners()`) and its one-shot index
membership is cleared, and no later `fireEvent` — after any further sequence
of API calls — ever invokes that registration again. -/
theorem c3_once_fires_at_most_once {D : Type} (hce : Bool) (emp : D) (s : Eventful)
    (hs : Reachable s) (n : String) (f : Nat) (data : Option D) :
    ∃ s2 inv1, (s.once n f).fireEvent hce emp n data = some (s2, inv1) ∧
      (⟨s.nextId, f⟩ : Wrapper) ∈ inv1.map Prod.fst ∧
      (∀ slot ∈ (dget s2.getListeners n).getD [], slot ≠ some ⟨s.nextId, f⟩) ∧
      dget s2._onceListeners n = none ∧
      (∀ tail n2 data2 s3 inv2,
        (runFrom s2 tail).fireEvent hce emp n2 data2 = some (s3, inv2) →
        ∀ e, (⟨s.nextId, f⟩, e) ∉ inv2) := by
  obtain ⟨h1, h2, h3, h4⟩ := reachable_evInv hs
  set w : Wrapper := ⟨s.nextId, f⟩ with hw
  set A := (dget s._listeners n).getD [] with hA
  set B := (dget s._onceListeners n).getD [] with hB
  have hfresh : ∀ r ∈ s._eventTarget, r.cb ≠ w := by
    intro r hr hc
    have hid := h3 r hr
    rw [hc, hw] at hid
    exact lt_irrefl _ hid
  have htgt1 : (s.once n f)._eventTarget =
      s._eventTarget ++ [{ name := n, cb := w, once := true }] := by
    rw [Eventful.once_eq s n f]
    exact addEventListener_fresh hfresh
  have hO1 : dget (s.once n f)._onceListeners n = some (B ++ [A.length]) := by
    rw [Eventful.once_eq s n f]
    exact dget_dset_self ..
  have hL1 : dget (s.once n f)._listeners n = some (A ++ [some w]) := by
    rw [Eventful.once_eq s n f]
    exact dget_dset_self ..
  set t1 := (dispatchEventCore (s.once n f)._eventTarget n).1 with ht1
  set F := fireFold n (B ++ [A.length]) (A ++ [some w]) t1 with hFdef
  obtain ⟨s2, ws, hcore⟩ : ∃ s2 ws, (s.once n f).fireEventCore n = some (s2, ws) :=
    ⟨_, _, Eventful.fireEventCore_once_some hO1 hL1⟩
  have hs2 := Eventful.fireEventCore_once_some hO1 hL1
  rw [hcore] at hs2
  rw [← ht1, ← hFdef] at hs2
  injection hs2 with hs2
  injection hs2 with hs2a hs2b
  have hwin : w ∈ ws := by
    rw [fireEventCore_invoked hcore, htgt1, List.filter_append, List.map_append]
    refine List.mem_append_right _ ?_
    simp
  have hnoW : noWrapper w s2 := by
    constructor
    · intro r hr hc
      rw [hs2a] at hr
      have hrt1 : r ∈ t1 := by
        rw [hFdef] at hr
        exact fireFold_snd_subset hr
      rw [ht1] at hrt1
      have hrt2 : r ∈ (s.once n f)._eventTarget.filter
          (fun x => !(x.name == n && x.once)) := hrt1
      rw [List.mem_filter] at hrt2
      obtain ⟨hrs1, hpred⟩ := hrt2
      rw [htgt1] at hrs1
      rcases List.mem_append.mp hrs1 with hrt | hrt
      · have hid := h3 r hrt
        rw [hc, hw] at hid
        exact lt_irrefl _ hid
      · rw [List.mem_singleton.mp hrt] at hpred
        simp at hpred
    · rw [hs2a]
      show w.id < (s.once n f).nextId
      rw [Eventful.once_eq s n f, hw]
      exact Nat.lt_succ_self _
  refine ⟨s2, ws.map (fun x => (x, createEvent hce emp n data)), ?_, ?_, ?_, ?_, ?_⟩
  · unfold Eventful.fireEvent
    rw [hcore]
  · rw [List.map_map]
    have hcomp : (Prod.fst ∘ fun x : Wrapper => (x, createEvent hce emp n data)) = id := rfl
    rw [hcomp, List.map_id]
    exact hwin
  · intro slot hslot hcontra
    have hgl2 : dget s2._listeners n = some (F.1.filter slotTruthy) := by
      rw [hs2a]
      exact dget_dset_self ..
    have hslot2 : slot ∈ F.1.filter slotTruthy := by
      have hglx : Eventful.getListeners s2 = s2._listeners := rfl
      rw [hglx, hgl2] at hslot
      exact hslot
    subst hcontra
    rw [List.mem_filter] at hslot2
    obtain ⟨hmemF, _⟩ := hslot2
    obtain ⟨j, hj, hget⟩ := List.mem_iff_getElem.mp hmemF
    have hlen : F.1.length = (A ++ [some w]).length := by
      rw [hFdef]
      exact fireFold_fst_length ..
    have hq : F.1[j]? = if j ∈ B ++ [A.length] ∧ j < (A ++ [some w]).length
        then some none else (A ++ [some w])[j]? := by
      rw [hFdef]
      exact fireFold_fst_getElem? ..
    rw [List.getElem?_eq_getElem hj, hget] at hq
    by_cases hcond : j ∈ B ++ [A.length] ∧ j < (A ++ [some w]).length
    · rw [if_pos hcond] at hq
      injection hq with hq
      cases hq
    · rw [if_neg hcond] at hq
      have hjlt : j < (A ++ [some w]).length := by
        rw [← hlen]
        exact hj
      have hjnotin : j ∉ B ++ [A.length] := fun hmem => hcond ⟨hmem, hjlt⟩
      have hjne : j ≠ A.length := by
        intro he
        exact hjnotin (he ▸ List.mem_append_right B (List.mem_singleton.mpr rfl))
      have hjA : j < A.length := by
        rw [List.length_append, List.length_singleton] at hjlt
        omega
      rw [List.getElem?_append, if_pos hjA] at hq
      have hmemA : some w ∈ A := by
        rw [List.getElem?_eq_getElem hjA] at hq
        injection hq with hq
        rw [hq]
        exact List.getElem_mem ..
      have hok := slots_of_getD h1 n (some w) hmemA
      rw [hw] at hok
      exact absurd hok (lt_irrefl _)
  · rw [hs2a]
    exact dget_ddel_self ..
  · intro tail n2 data2 s3 inv2 hfe e hmem
    have hnoW2 := noWrapper_runFrom hnoW tail
    unfold Eventful.fireEvent at hfe
    cases hfc : (runFrom s2 tail).fireEventCore n2 with
    | none =>
      rw [hfc] at hfe
      cases hfe
    | some pr =>
      obtain ⟨s3x, ws2⟩ := pr
      rw [hfc] at hfe
      injection hfe with hfe
      injection hfe with hfe1 hfe2
      rw [← hfe2] at hmem
      rw [List.mem_map] at hmem
      obtain ⟨w2, hw2, heq⟩ := hmem
      have hww : w2 = w := congrArg Prod.fst heq
      rw [hww] at hw2
      rw [fireEventCore_invoked hfc] at hw2
      rw [List.mem_map] at hw2
      obtain ⟨r, hr, hcb⟩ := hw2
      exact hnoW2.1 r (List.mem_of_mem_filter hr) hcb

/-- C3 witness: the reachability hypothesis is satisfiable at a concrete
input and the first fire succeeds. -/
theorem c3_once_fires_at_most_once_witness :
    ((Eventful.init.once "e" 4).fireEvent true (0 : Nat) "e" none).isSome = true := by
  obtain ⟨s2, inv1, hfe, _, _, _, _⟩ :=
    c3_once_fires_at_most_once true (0 : Nat) Eventful.init ⟨[], rfl⟩ "e" 4 none
  rw [hfe]
  rfl
